import Mathlib

/-!
Shallow embedding of the link-prediction core of this repository:

* `python/link_prediction/link_prediction_util.py` — `preprocess` (edge
  sampler / splitter);
* `python/link_prediction/link_prediction.py` — `_get_dgl_graph_data`
  (identifier remapper and tensor graph builder) and `predict` (inductive
  query adapter).

Edge lists are Lean lists of pairs of natural numbers; a dgl edge id is the
position of the edge in the list.  Rational numbers stand for the Python
floats wherever the claims only involve values that float arithmetic
represents exactly.  The two pseudo-random draws of `preprocess`
(`np.random.permutation` and `np.random.choice`) are passed in explicitly;
the properties numpy guarantees for them (being a permutation of
`range E`, being a with-replacement sample of the candidate-pool indices)
appear as hypotheses of the theorems.  Every exception path of the Python
code is rendered as `none`.
-/

/-- A dgl graph: a number of nodes and a directed edge list.  The id of an
edge is its position in the list.  dgl keeps the invariant that every
endpoint is smaller than `numNodes`; theorems that need it take it as an
explicit hypothesis. -/
structure DGLGraph where
  numNodes : Nat
  edges : List (Nat × Nat)
deriving DecidableEq, Repr

/-- Entry `(i, j)` of the dense adjacency matrix built in `preprocess` by
`sp.coo_matrix((np.ones(len(u)), (u, v)))` followed by `todense()` and
`squarify`: scipy sums the `1.0` data entries over equal coordinates, so the
cell holds the number of occurrences of the directed edge `(i, j)` in the
edge list; `squarify` pads with zeros, and the count of a pair outside the
coordinate range is `0`, so the padding is covered by the same formula. -/
def adjEntry (edges : List (Nat × Nat)) (i j : Nat) : Nat :=
  edges.count (i, j)

/-- Side length of the squarified adjacency matrix: scipy infers the coo
shape `(max u + 1, max v + 1)` and `squarify` pads the smaller dimension,
giving a square of side `max over all endpoints + 1`. -/
def matSize (edges : List (Nat × Nat)) : Nat :=
  (edges.map (fun e => max e.1 e.2)).foldr max 0 + 1

/-- Modelled from the spec: `test_adjacency_matrix` is imported from
`tests/dgl_adjacency_test.py`, which is not among the sources; per spec §8
the check reconstructs the dense adjacency matrix from the graph's edge list
and compares it element-wise with the matrix it is handed.  In this
embedding the handed matrix is `adjEntry` and the reconstruction from the
edge list is the occurrence count, so the check compares the two cell by
cell over the `s × s` range. -/
def testAdjacencyMatrix (edges : List (Nat × Nat)) (s : Nat) : Bool :=
  decide (∀ i < s, ∀ j < s, adjEntry edges i j = edges.count (i, j))

/-- Entry `(i, j)` of `adj_neg = 1 - adj_matrix - np.eye(N)` (an integer:
duplicate edges drive it negative). -/
def negEntry (edges : List (Nat × Nat)) (i j : Nat) : Int :=
  1 - (adjEntry edges i j : Int) - (if i = j then 1 else 0)

/-- `neg_u, neg_v = np.where(adj_neg != 0)`: the cells of the `N × N`
matrix with a nonzero entry, listed in row-major order. -/
def negCandidates (edges : List (Nat × Nat)) (n : Nat) : List (Nat × Nat) :=
  (List.range n).flatMap (fun i =>
    ((List.range n).filter (fun j => decide (negEntry edges i j ≠ 0))).map
      (fun j => (i, j)))

/-- `test_size = int(len(eids) * (1 - split_ratio))` in exact rational
arithmetic.  Python's `int()` truncates toward zero; for the nonnegative
values arising from `split_ratio < 1` this is the floor. -/
def testSize (numEdges : Nat) (splitRatio : ℚ) : Nat :=
  (⌊(numEdges : ℚ) * (1 - splitRatio)⌋).toNat

/-- `dgl.remove_edges(graph, ids)`: keep the edges whose id is not in
`ids`, in id order; nodes are untouched. -/
def removeEdgesByIds (edges : List (Nat × Nat)) (ids : List Nat) : List (Nat × Nat) :=
  ((List.range edges.length).filter (fun i => decide (i ∉ ids))).map
    (fun i => edges.getD i (0, 0))

/-- The five graphs returned by `preprocess`, in the order of the Python
return statement. -/
structure SplitResult where
  trainG : DGLGraph
  trainPos : DGLGraph
  trainNeg : DGLGraph
  testPos : DGLGraph
  testNeg : DGLGraph
deriving DecidableEq, Repr

/-- `preprocess(graph, split_ratio)` from `link_prediction_util.py`.
`perm` stands for the draw `np.random.permutation(np.arange(E))` and
`negChoice` for `np.random.choice(len(neg_u), E)`.  The `none` cases are,
in the order the Python code hits them: `coo_matrix` on an empty edge list
raises; `test_adjacency_matrix` returning `False` makes the function return
`(None, ...)`; the broadcast `1 - adj_matrix - np.eye(N)` raises when the
squarified matrix side differs from `N`; the two asserts raise; and
`np.random.choice` raises on an empty candidate pool. -/
def preprocess (g : DGLGraph) (splitRatio : ℚ) (perm negChoice : List Nat) :
    Option SplitResult :=
  if g.edges.length = 0 then none
  else if testAdjacencyMatrix g.edges (matSize g.edges) = false then none
  else if matSize g.edges ≠ g.numNodes then none
  else if g.edges.length + (negCandidates g.edges g.numNodes).length ≠
      g.numNodes * (g.numNodes - 1) then none
  else if (negCandidates g.edges g.numNodes).length = 0 then none
  else
    let negs := negCandidates g.edges g.numNodes
    let ts := testSize g.edges.length splitRatio
    some
      { trainG := ⟨g.numNodes, removeEdgesByIds g.edges (perm.take ts)⟩
        trainPos := ⟨g.numNodes, (perm.drop ts).map (fun i => g.edges.getD i (0, 0))⟩
        trainNeg := ⟨g.numNodes, (negChoice.drop ts).map (fun i => negs.getD i (0, 0))⟩
        testPos := ⟨g.numNodes, (perm.take ts).map (fun i => g.edges.getD i (0, 0))⟩
        testNeg := ⟨g.numNodes, (negChoice.take ts).map (fun i => negs.getD i (0, 0))⟩ }

/-- The constant the code plants into every generator at the top of
`preprocess` (`random.seed`, `np.random.seed`, `torch.manual_seed`). -/
def fixedSeed : Nat := 717112397

/-- `preprocess` with the random draws produced from the global generator
state: `np.random.seed(717112397)` discards the incoming state `st` and
replaces it with the state determined by the fixed seed, `permGen` consumes
that state to produce the permutation of `arange(E)` together with the
follow-up state, from which `choiceGen` draws the with-replacement sample
of candidate-pool indices.  The generator functions are parameters: the
claims hold for any generator, which is exactly what makes the splits
reproducible. -/
def preprocessSeeded (permGen : Nat → Nat → List Nat × Nat)
    (choiceGen : Nat → Nat → Nat → List Nat)
    (g : DGLGraph) (splitRatio : ℚ) (st : Nat) : Option SplitResult :=
  let pr := permGen fixedSeed g.edges.length
  let negChoice := choiceGen pr.2 (negCandidates g.edges g.numNodes).length
    g.edges.length
  preprocess g splitRatio pr.1 negChoice

/-! ### The identifier remapper and tensor graph builder
(`_get_dgl_graph_data` in `link_prediction.py`). -/

/-- A vertex of the property-graph view: the value of the id property and
the value of the feature property (`properties.get` yields `None`, hence
`Option`, when the property is absent). -/
structure MgVertex where
  vid : Int
  feat : Option (List ℚ)
deriving DecidableEq, Repr

/-- One scanned edge: `edge.from_vertex` and `edge.to_vertex`.  The scan
order of `_get_dgl_graph_data` (vertices in view order, each vertex's
out-edges in order) is the order of this list. -/
structure MgEdge where
  fromV : MgVertex
  toV : MgVertex
deriving DecidableEq, Repr

/-- The mutable state of the `_get_dgl_graph_data` scan: the two partial
edge-endpoint lists, the two mappings, the per-index feature list and the
next free dense index `ind`. -/
structure BuildState where
  srcNodes : List Nat
  destNodes : List Nat
  newToOld : List (Nat × Int)
  oldToNew : List (Int × Nat)
  features : List (Option (List ℚ))
  ind : Nat
deriving DecidableEq, Repr

def initBuild : BuildState := ⟨[], [], [], [], [], 0⟩

/-- One endpoint of the scan body: if the external id is not yet a key of
`old_to_new`, assign the next dense index, record both mappings, record the
feature value (possibly `None`) and append the new index to the endpoint
list; otherwise only append the known index. -/
def processEndpoint (isSrc : Bool) (st : BuildState) (v : MgVertex) : BuildState :=
  match st.oldToNew.lookup v.vid with
  | some k =>
      if isSrc then { st with srcNodes := st.srcNodes ++ [k] }
      else { st with destNodes := st.destNodes ++ [k] }
  | none =>
      { srcNodes := if isSrc then st.srcNodes ++ [st.ind] else st.srcNodes
        destNodes := if isSrc then st.destNodes else st.destNodes ++ [st.ind]
        newToOld := st.newToOld ++ [(st.ind, v.vid)]
        oldToNew := st.oldToNew ++ [(v.vid, st.ind)]
        features := st.features ++ [v.feat]
        ind := st.ind + 1 }

/-- The loop body for one edge: source endpoint first, then destination. -/
def processEdge (st : BuildState) (e : MgEdge) : BuildState :=
  processEndpoint false (processEndpoint true st e.fromV) e.toV

/-- The whole scan of `_get_dgl_graph_data`. -/
def buildAll (edges : List MgEdge) : BuildState :=
  edges.foldl processEdge initBuild

/-- Whether `torch.tensor(features, dtype=torch.float32)` accepts the
recorded feature list: it raises both when an entry is `None` (no sequence
to convert) and when the entries are sequences of unequal length (a ragged
array); it succeeds exactly on a list of present, equal-length vectors. -/
def tensorConvertible (fs : List (Option (List ℚ))) : Bool :=
  fs.all (fun f => f.isSome) &&
    match fs with
    | [] => true
    | f :: rest => rest.all (fun g => (g.getD []).length = (f.getD []).length)

/-- `_get_dgl_graph_data(ctx)`: run the scan, then
`torch.tensor(features, ...)` — which raises when some recorded feature is
`None` and also when the feature vectors have unequal lengths — and
`dgl.graph((src_nodes, dest_nodes))`, whose node count is the number of
assigned dense indices. -/
def getDglGraphData (edges : List MgEdge) :
    Option (DGLGraph × List (Nat × Int) × List (Int × Nat)) :=
  let st := buildAll edges
  if tensorConvertible st.features then
    some (⟨st.ind, st.srcNodes.zip st.destNodes⟩, st.newToOld, st.oldToNew)
  else none

/-- The external ids in scan order: edges in list order, and within each
edge the source id before the destination id. -/
def flattenIds (edges : List MgEdge) : List Int :=
  edges.flatMap (fun e => [e.fromV.vid, e.toV.vid])

/-- One step of first-encounter collection. -/
def encStep (acc : List Int) (x : Int) : List Int :=
  if x ∈ acc then acc else acc ++ [x]

/-- The external ids in the order they are first encountered. -/
def encounterOrder (ids : List Int) : List Int :=
  ids.foldl encStep []

/-! ### The inductive query adapter (`predict` in `link_prediction.py`). -/

/-- `graph.edge_ids(src, dest)`: the id of the edge between the pair (for
the simple graphs this adapter runs on, the first and only occurrence). -/
def edgeIdOf (g : DGLGraph) (src dest : Nat) : Nat :=
  g.edges.indexOf (src, dest)

/-- `graph.add_edges(src, dest)`: append one edge; dgl grows the node count
when an endpoint id is not yet a node. -/
def addEdge (g : DGLGraph) (src dest : Nat) : DGLGraph :=
  ⟨max g.numNodes (max (src + 1) (dest + 1)), g.edges ++ [(src, dest)]⟩

/-- `graph.remove_edges(eid)`: drop the edge with the given id; the
remaining edges keep their relative order and are reassigned consecutive
ids; nodes are untouched. -/
def removeEdgeId (g : DGLGraph) (eid : Nat) : DGLGraph :=
  ⟨g.numNodes, g.edges.eraseIdx eid⟩

/-- The body of `predict` from `link_prediction.py`: resolve the two
external ids through `old_to_new` (a missing key raises, hence `none`);
if the directed edge already exists, score at its id; otherwise add a probe
edge, look its id up, score, and remove exactly that id.  `scorer g eid`
abstracts `link_prediction_util.predict(model, predictor, g, ..., eid)`,
which reads the graph and the edge id but does not change the graph. -/
def predictProc (scorer : DGLGraph → Nat → ℚ) (oldToNew : List (Int × Nat))
    (g : DGLGraph) (srcOld destOld : Int) : Option (ℚ × DGLGraph) :=
  match oldToNew.lookup srcOld, oldToNew.lookup destOld with
  | some srcId, some destId =>
      if (srcId, destId) ∈ g.edges then
        some (scorer g (edgeIdOf g srcId destId), g)
      else
        let g2 := addEdge g srcId destId
        let eid := edgeIdOf g2 srcId destId
        some (scorer g2 eid, removeEdgeId g2 eid)
  | _, _ => none

/-- The per-cell defect of the assert equation: zero exactly on cells
compatible with a simple graph, never positive. -/
def termVal (edges : List (Nat × Nat)) (i j : Nat) : ℤ :=
  (if negEntry edges i j = 0 then (1 : ℤ) else 0) -
    (if i = j then (1 : ℤ) else 0) - edges.count (i, j)

/-- Round half to even on rationals: the rounding mode the spec claims for
the test-partition size. -/
def roundHalfEven (q : ℚ) : ℤ :=
  if q - ⌊q⌋ = 1 / 2 then (if Even ⌊q⌋ then ⌊q⌋ else ⌊q⌋ + 1) else round q

/-- The test-partition size as the spec words it: round-half-to-even of
`E * (1 - split_ratio)`, clamped to `[0, E]`. -/
def claimedTestSize (E : Nat) (r : ℚ) : ℤ :=
  min (max (roundHalfEven ((E : ℚ) * (1 - r))) 0) E

/-- `preprocess` with the already-computed test size as a parameter: the
same construction with the single rational-valued quantity factored out,
used to evaluate concrete runs. -/
def preprocessWithTs (g : DGLGraph) (ts : Nat) (perm negChoice : List Nat) :
    Option SplitResult :=
  if g.edges.length = 0 then none
  else if testAdjacencyMatrix g.edges (matSize g.edges) = false then none
  else if matSize g.edges ≠ g.numNodes then none
  else if g.edges.length + (negCandidates g.edges g.numNodes).length ≠
      g.numNodes * (g.numNodes - 1) then none
  else if (negCandidates g.edges g.numNodes).length = 0 then none
  else
    let negs := negCandidates g.edges g.numNodes
    some
      { trainG := ⟨g.numNodes, removeEdgesByIds g.edges (perm.take ts)⟩
        trainPos := ⟨g.numNodes, (perm.drop ts).map (fun i => g.edges.getD i (0, 0))⟩
        trainNeg := ⟨g.numNodes, (negChoice.drop ts).map (fun i => negs.getD i (0, 0))⟩
        testPos := ⟨g.numNodes, (perm.take ts).map (fun i => g.edges.getD i (0, 0))⟩
        testNeg := ⟨g.numNodes, (negChoice.take ts).map (fun i => negs.getD i (0, 0))⟩ }

/-- The association list pairing ids with consecutive indices from `k` on:
`idxPairs [a, b, c] k = [(a, k), (b, k+1), (c, k+2)]` — the shape of
`old_to_new` during the scan of `_get_dgl_graph_data`. -/
def idxPairs : List Int → Nat → List (Int × Nat)
  | [], _ => []
  | x :: xs, k => (x, k) :: idxPairs xs (k + 1)

/-- The reversed association list — the shape of `new_to_old`. -/
def revPairs : List Int → Nat → List (Nat × Int)
  | [], _ => []
  | x :: xs, k => (k, x) :: revPairs xs (k + 1)

/-- A concrete three-node example graph used to exhibit runs of
`preprocess`: edges `0 -> 1 -> 2`. -/
def gEx : DGLGraph := ⟨3, [(0, 1), (1, 2)]⟩

/-- A concrete permutation draw for `gEx` (a permutation of `[0, 1]`). -/
def permEx : List Nat := [1, 0]

/-- A concrete with-replacement draw of candidate-pool indices for `gEx`
(the pool has the four pairs `(0,2), (1,0), (2,0), (2,1)`). -/
def choiceEx : List Nat := [3, 0]

/-- The split `preprocess` returns on `gEx` with ratio `1/2`, `permEx` and
`choiceEx`. -/
def splitEx : SplitResult :=
  { trainG := ⟨3, [(0, 1)]⟩
    trainPos := ⟨3, [(0, 1)]⟩
    trainNeg := ⟨3, [(0, 2)]⟩
    testPos := ⟨3, [(1, 2)]⟩
    testNeg := ⟨3, [(2, 1)]⟩ }

/-- A concrete two-edge property-graph view (external ids 10 and 20) used
to exhibit the remapper. -/
def edgesEx : List MgEdge := [⟨⟨10, none⟩, ⟨20, none⟩⟩, ⟨⟨20, none⟩, ⟨10, none⟩⟩]

/-- A concrete scoring function standing in for the trained model. -/
def scorerEx : DGLGraph → Nat → ℚ := fun _ eid => eid

/-- A concrete `old_to_new` mapping for the adapter examples. -/
def o2nEx : List (Int × Nat) := [(100, 0), (200, 1)]

/-- A concrete trained graph for the adapter examples. -/
def predGEx : DGLGraph := ⟨2, [(0, 1)]⟩

/-! ### Counting lemmas for the adjacency complement

The two asserts in `preprocess` compare `len(u) + len(neg_u)` with
`N * (N - 1)`.  The lemmas below show this equation holds exactly when the
graph is simple (no duplicate directed edges, no self-loops), which is both
what claim C10 asserts and what the no-leakage and partition claims need
about any run of `preprocess` that returns a result. -/

lemma listSum_range_eq {M : Type} [AddCommMonoid M] (f : ℕ → M) (n : ℕ) :
    ((List.range n).map f).sum = ∑ i ∈ Finset.range n, f i := by
  induction n with
  | zero => simp
  | succ n ih =>
      rw [List.range_succ, List.map_append, List.sum_append, Finset.sum_range_succ, ih]
      simp

lemma countP_cast_eq_sum_ite (l : List ℕ) (p : ℕ → Bool) :
    ((l.countP p : ℕ) : ℤ) = (l.map (fun a => if p a then (1 : ℤ) else 0)).sum := by
  induction l with
  | nil => simp
  | cons a l ih =>
      by_cases h : p a <;> simp [List.countP_cons, h, ih] <;> ring

lemma negCandidates_length_eq (edges : List (Nat × Nat)) (n : Nat) :
    ((negCandidates edges n).length : ℤ) =
      ∑ i ∈ Finset.range n, ∑ j ∈ Finset.range n,
        (if negEntry edges i j ≠ 0 then (1 : ℤ) else 0) := by
  unfold negCandidates
  rw [List.length_flatMap]
  have h1 : (List.map (List.length ∘ fun i =>
      ((List.range n).filter (fun j => decide (negEntry edges i j ≠ 0))).map
        (fun j => (i, j))) (List.range n))
      = (List.range n).map fun i =>
        (List.range n).countP (fun j => decide (negEntry edges i j ≠ 0)) := by
    refine List.map_congr_left fun i _ => ?_
    simp [List.countP_eq_length_filter]
  rw [h1, Nat.cast_list_sum, List.map_map, listSum_range_eq]
  refine Finset.sum_congr rfl fun i _ => ?_
  show (((List.range n).countP (fun j => decide (negEntry edges i j ≠ 0)) : ℕ) : ℤ) = _
  rw [countP_cast_eq_sum_ite]
  rw [listSum_range_eq (fun j => if decide (negEntry edges i j ≠ 0) then (1 : ℤ) else 0) n]
  refine Finset.sum_congr rfl fun j _ => ?_
  by_cases h : negEntry edges i j ≠ 0 <;> simp [h]

lemma sum_ite_pair_eq (n a b : ℕ) (ha : a < n) (hb : b < n) :
    ∑ i ∈ Finset.range n, ∑ j ∈ Finset.range n,
      (if (i, j) = (a, b) then (1 : ℤ) else 0) = 1 := by
  have hcell : ∀ i j : ℕ, (if (i, j) = (a, b) then (1 : ℤ) else 0) =
      (if i = a then (if j = b then (1 : ℤ) else 0) else 0) := by
    intro i j
    by_cases h1 : i = a <;> by_cases h2 : j = b <;> simp [h1, h2]
  simp only [hcell]
  have hrow : ∀ i ∈ Finset.range n,
      (∑ j ∈ Finset.range n, (if i = a then (if j = b then (1 : ℤ) else 0) else 0))
        = (if i = a then (1 : ℤ) else 0) := by
    intro i _
    by_cases h1 : i = a
    · simp only [h1, if_true]
      rw [Finset.sum_ite_eq' (Finset.range n) b (fun _ => (1 : ℤ))]
      simp [Finset.mem_range, hb]
    · simp [h1]
  rw [Finset.sum_congr rfl hrow]
  rw [Finset.sum_ite_eq' (Finset.range n) a (fun _ => (1 : ℤ))]
  simp [Finset.mem_range, ha]

lemma sum_count_eq_length (edges : List (Nat × Nat)) (n : Nat)
    (h : ∀ e ∈ edges, e.1 < n ∧ e.2 < n) :
    ∑ i ∈ Finset.range n, ∑ j ∈ Finset.range n, (edges.count (i, j) : ℤ) =
      edges.length := by
  induction edges with
  | nil => simp
  | cons e tl ih =>
      have he := h e (List.mem_cons_self _ _)
      have htl : ∀ x ∈ tl, x.1 < n ∧ x.2 < n := fun x hx => h x (List.mem_cons_of_mem _ hx)
      have hcell : ∀ i j : ℕ, (((e :: tl).count (i, j) : ℕ) : ℤ) =
          (tl.count (i, j) : ℤ) + (if (i, j) = e then (1 : ℤ) else 0) := by
        intro i j
        rw [List.count_cons]
        by_cases hx : (i, j) = e
        · simp [hx]
        · have hx2 : ¬e = (i, j) := fun hh => hx hh.symm
          simp [hx, hx2]
      simp only [hcell]
      rw [Finset.sum_congr rfl fun i _ => Finset.sum_add_distrib,
        Finset.sum_add_distrib, ih htl]
      have : ∑ i ∈ Finset.range n, ∑ j ∈ Finset.range n,
          (if (i, j) = e then (1 : ℤ) else 0) = 1 := by
        obtain ⟨a, b⟩ := e
        exact sum_ite_pair_eq n a b he.1 he.2
      rw [this]
      simp [add_comm]

lemma sum_ite_diag (n : ℕ) :
    ∑ i ∈ Finset.range n, ∑ j ∈ Finset.range n,
      (if i = j then (1 : ℤ) else 0) = n := by
  have hrow : ∀ i ∈ Finset.range n,
      (∑ j ∈ Finset.range n, (if i = j then (1 : ℤ) else 0)) = 1 := by
    intro i hi
    rw [Finset.sum_ite_eq (Finset.range n) i (fun _ => (1 : ℤ))]
    simp [Finset.mem_range.mp hi]
  rw [Finset.sum_congr rfl hrow]
  simp

lemma termVal_nonpos (edges : List (Nat × Nat)) (i j : Nat) : termVal edges i j ≤ 0 := by
  simp only [termVal, negEntry, adjEntry]
  split_ifs <;> omega

lemma termVal_eq_zero_iff (edges : List (Nat × Nat)) (i j : Nat) :
    termVal edges i j = 0 ↔
      (if i = j then edges.count (i, j) = 0 else edges.count (i, j) ≤ 1) := by
  simp only [termVal, negEntry, adjEntry]
  split_ifs <;> omega

lemma nodup_iff_count_le_one_beq {α : Type} [BEq α] [LawfulBEq α] {l : List α} :
    l.Nodup ↔ ∀ a, l.count a ≤ 1 := by
  induction l with
  | nil => simp
  | cons a tl ih =>
      rw [List.nodup_cons]
      constructor
      · rintro ⟨hna, hnd⟩ x
        by_cases hx : x = a
        · subst hx
          rw [List.count_cons_self, List.count_eq_zero.mpr hna]
        · rw [List.count_cons_of_ne hx]
          exact ih.mp hnd x
      · intro hall
        refine ⟨fun hmem => ?_, ih.mpr fun x => ?_⟩
        · have hc := hall a
          rw [List.count_cons_self] at hc
          have hpos : 0 < tl.count a := List.count_pos_iff.mpr hmem
          omega
        · by_cases hx : x = a
          · subst hx
            have hc := hall x
            rw [List.count_cons_self] at hc
            omega
          · have hc := hall x
            rw [List.count_cons_of_ne hx] at hc
            exact hc

lemma sum_split_zero_ne (edges : List (Nat × Nat)) (n : Nat) :
    (∑ i ∈ Finset.range n, ∑ j ∈ Finset.range n,
        (if negEntry edges i j = 0 then (1 : ℤ) else 0)) +
      ((negCandidates edges n).length : ℤ) = (n : ℤ) * n := by
  rw [negCandidates_length_eq, ← Finset.sum_add_distrib]
  have hrow : ∀ i ∈ Finset.range n,
      ((∑ j ∈ Finset.range n, (if negEntry edges i j = 0 then (1 : ℤ) else 0)) +
        ∑ j ∈ Finset.range n, (if negEntry edges i j ≠ 0 then (1 : ℤ) else 0))
      = (n : ℤ) := by
    intro i _
    rw [← Finset.sum_add_distrib]
    have hcell : ∀ j ∈ Finset.range n,
        ((if negEntry edges i j = 0 then (1 : ℤ) else 0) +
          (if negEntry edges i j ≠ 0 then (1 : ℤ) else 0)) = 1 := by
      intro j _
      by_cases hz : negEntry edges i j = 0 <;> simp [hz]
    rw [Finset.sum_congr rfl hcell]
    simp
  rw [Finset.sum_congr rfl hrow]
  simp [Finset.sum_const, Finset.card_range, nsmul_eq_mul]

lemma term_sum_eq (edges : List (Nat × Nat)) (n : Nat)
    (h : ∀ e ∈ edges, e.1 < n ∧ e.2 < n) :
    ∑ i ∈ Finset.range n, ∑ j ∈ Finset.range n, termVal edges i j
      = (n : ℤ) * n - ((negCandidates edges n).length : ℤ) - n - edges.length := by
  have hterm : ∀ i ∈ Finset.range n, ∑ j ∈ Finset.range n, termVal edges i j
      = (∑ j ∈ Finset.range n, (if negEntry edges i j = 0 then (1 : ℤ) else 0))
        - (∑ j ∈ Finset.range n, (if i = j then (1 : ℤ) else 0))
        - ∑ j ∈ Finset.range n, (edges.count (i, j) : ℤ) := by
    intro i _
    simp only [termVal]
    rw [Finset.sum_sub_distrib, Finset.sum_sub_distrib]
  rw [Finset.sum_congr rfl hterm, Finset.sum_sub_distrib, Finset.sum_sub_distrib,
    sum_count_eq_length edges n h, sum_ite_diag n]
  have := sum_split_zero_ne edges n
  linarith

/-- The assert `len(u) + len(neg_u) == N * (N - 1)` in `preprocess` holds
exactly when the edge list has no duplicate directed edge and no self-loop
(given the dgl invariant that endpoints are below the node count). -/
lemma preprocess_assert_iff (edges : List (Nat × Nat)) (n : Nat)
    (h : ∀ e ∈ edges, e.1 < n ∧ e.2 < n) :
    edges.length + (negCandidates edges n).length = n * (n - 1) ↔
      edges.Nodup ∧ ∀ e ∈ edges, e.1 ≠ e.2 := by
  rcases Nat.eq_zero_or_pos n with hn | hn
  · subst hn
    have he : edges = [] := by
      cases edges with
      | nil => rfl
      | cons e tl => exact absurd (h e (List.mem_cons_self _ _)).1 (Nat.not_lt_zero _)
    subst he
    simp [negCandidates]
  · have hT := term_sum_eq edges n h
    have hzero : (∑ i ∈ Finset.range n, ∑ j ∈ Finset.range n, termVal edges i j = 0)
        ↔ ∀ i ∈ Finset.range n, ∀ j ∈ Finset.range n, termVal edges i j = 0 := by
      rw [Finset.sum_eq_zero_iff_of_nonpos
        (fun i _ => Finset.sum_nonpos fun j _ => termVal_nonpos edges i j)]
      constructor
      · intro hall i hi
        rw [← Finset.sum_eq_zero_iff_of_nonpos (fun j _ => termVal_nonpos edges i j)]
        exact hall i hi
      · intro hall i hi
        rw [Finset.sum_eq_zero_iff_of_nonpos (fun j _ => termVal_nonpos edges i j)]
        exact hall i hi
    have hcast : ((n * (n - 1) : ℕ) : ℤ) = (n : ℤ) * n - n := by
      push_cast [Nat.cast_sub hn]
      ring
    constructor
    · intro heq
      have heqZ : (edges.length : ℤ) + ((negCandidates edges n).length : ℤ)
          = (n : ℤ) * n - n := by
        rw [← hcast]
        exact_mod_cast heq
      have hcells := hzero.mp (by linarith)
      constructor
      · rw [nodup_iff_count_le_one_beq]
        intro p
        by_cases hp : p.1 < n ∧ p.2 < n
        · have hc := hcells p.1 (Finset.mem_range.mpr hp.1) p.2 (Finset.mem_range.mpr hp.2)
          rw [termVal_eq_zero_iff] at hc
          rw [show ((p.1 : ℕ), (p.2 : ℕ)) = p from rfl] at hc
          by_cases hd : p.1 = p.2
          · rw [if_pos hd] at hc
            omega
          · rw [if_neg hd] at hc
            exact hc
        · have hnm : p ∉ edges := fun hmem => hp ⟨(h p hmem).1, (h p hmem).2⟩
          simp [List.count_eq_zero_of_not_mem hnm]
      · intro e he hcontra
        have hc := hcells e.1 (Finset.mem_range.mpr (h e he).1) e.2
          (Finset.mem_range.mpr (h e he).2)
        rw [termVal_eq_zero_iff, if_pos hcontra] at hc
        rw [show ((e.1 : ℕ), (e.2 : ℕ)) = e from rfl] at hc
        have hpos : 0 < edges.count e := List.count_pos_iff.mpr he
        omega
    · rintro ⟨hnd, hns⟩
      have hcells : ∀ i ∈ Finset.range n, ∀ j ∈ Finset.range n,
          termVal edges i j = 0 := by
        intro i _ j _
        rw [termVal_eq_zero_iff]
        by_cases hd : i = j
        · rw [if_pos hd]
          subst hd
          refine List.count_eq_zero_of_not_mem fun hmem => ?_
          exact hns (i, i) hmem rfl
        · rw [if_neg hd]
          exact nodup_iff_count_le_one_beq.mp hnd (i, j)
      have hTzero := hzero.mpr hcells
      have heqZ : (edges.length : ℤ) + ((negCandidates edges n).length : ℤ)
          = (n : ℤ) * n - n := by linarith
      have hfin : ((edges.length + (negCandidates edges n).length : ℕ) : ℤ)
          = ((n * (n - 1) : ℕ) : ℤ) := by
        rw [hcast]
        push_cast
        linarith
      exact_mod_cast hfin

/-! ### Inverting a successful run of `preprocess` -/

lemma preprocess_eq_some {g : DGLGraph} {r : ℚ} {perm negChoice : List Nat}
    {out : SplitResult} (h : preprocess g r perm negChoice = some out) :
    g.edges.length ≠ 0 ∧
    matSize g.edges = g.numNodes ∧
    g.edges.length + (negCandidates g.edges g.numNodes).length =
      g.numNodes * (g.numNodes - 1) ∧
    (negCandidates g.edges g.numNodes).length ≠ 0 ∧
    out = { trainG := ⟨g.numNodes,
              removeEdgesByIds g.edges (perm.take (testSize g.edges.length r))⟩
            trainPos := ⟨g.numNodes, (perm.drop (testSize g.edges.length r)).map
              (fun i => g.edges.getD i (0, 0))⟩
            trainNeg := ⟨g.numNodes, (negChoice.drop (testSize g.edges.length r)).map
              (fun i => (negCandidates g.edges g.numNodes).getD i (0, 0))⟩
            testPos := ⟨g.numNodes, (perm.take (testSize g.edges.length r)).map
              (fun i => g.edges.getD i (0, 0))⟩
            testNeg := ⟨g.numNodes, (negChoice.take (testSize g.edges.length r)).map
              (fun i => (negCandidates g.edges g.numNodes).getD i (0, 0))⟩ } := by
  unfold preprocess at h
  split_ifs at h with h1 h2 h3 h4 h5
  exact ⟨h1, not_not.mp h3, not_not.mp h4, h5, (Option.some.inj h).symm⟩

/-- Any run of `preprocess` that returns a result ran on a simple graph:
the asserts at lines 135-136 pass only then. -/
lemma preprocess_some_simple {g : DGLGraph} {r : ℚ} {perm negChoice : List Nat}
    {out : SplitResult}
    (hin : ∀ e ∈ g.edges, e.1 < g.numNodes ∧ e.2 < g.numNodes)
    (h : preprocess g r perm negChoice = some out) :
    g.edges.Nodup ∧ ∀ e ∈ g.edges, e.1 ≠ e.2 :=
  (preprocess_assert_iff g.edges g.numNodes hin).mp (preprocess_eq_some h).2.2.1

/-! ### Membership helpers -/

lemma mem_removeEdgesByIds {edges : List (Nat × Nat)} {ids : List Nat} {e : Nat × Nat} :
    e ∈ removeEdgesByIds edges ids ↔
      ∃ j, j < edges.length ∧ j ∉ ids ∧ edges.getD j (0, 0) = e := by
  unfold removeEdgesByIds
  simp only [List.mem_map, List.mem_filter, List.mem_range, decide_eq_true_eq]
  constructor
  · rintro ⟨j, ⟨hj, hnotin⟩, rfl⟩
    exact ⟨j, hj, hnotin, rfl⟩
  · rintro ⟨j, hj, hnotin, rfl⟩
    exact ⟨j, ⟨hj, hnotin⟩, rfl⟩

lemma mem_negCandidates {edges : List (Nat × Nat)} {n : Nat} {p : Nat × Nat} :
    p ∈ negCandidates edges n ↔
      p.1 < n ∧ p.2 < n ∧ negEntry edges p.1 p.2 ≠ 0 := by
  unfold negCandidates
  simp only [List.mem_flatMap, List.mem_map, List.mem_filter, List.mem_range,
    decide_eq_true_eq]
  constructor
  · rintro ⟨i, hi, j, ⟨hj, hne⟩, rfl⟩
    exact ⟨hi, hj, hne⟩
  · rintro ⟨h1, h2, h3⟩
    exact ⟨p.1, h1, p.2, ⟨h2, h3⟩, rfl⟩

lemma map_getD_range (l : List (Nat × Nat)) :
    (List.range l.length).map (fun i => l.getD i (0, 0)) = l := by
  apply List.ext_getElem
  · simp
  · intro i h1 h2
    simp only [List.getElem_map, List.getElem_range]
    exact List.getD_eq_getElem l (0, 0) h2

lemma testSize_le (E : Nat) (r : ℚ) (hr : 0 ≤ r) : testSize E r ≤ E := by
  unfold testSize
  have h1 : (E : ℚ) * (1 - r) ≤ (E : ℚ) := by
    have h2 := mul_le_mul_of_nonneg_left (by linarith : (1 - r) ≤ 1)
      (Nat.cast_nonneg (α := ℚ) E)
    simpa using h2
  have h3 : ⌊(E : ℚ) * (1 - r)⌋ ≤ (E : ℤ) := by
    have := Int.floor_le_floor h1
    simpa using this
  exact Int.toNat_le.mpr h3

/-! ### Claims about the splitter -/

/-- C1: for every input graph with at least one edge and every split ratio in
(0, 1), the training graph returned by `preprocess` is the original graph with
exactly the test-partition edge ids removed: every test-partition edge is
absent from the training graph (no leakage), every non-test-partition edge is
retained, and the node count is preserved.  The hypotheses record the dgl
endpoint invariant and the numpy guarantee that `perm` is a permutation of
`arange(E)`. -/
theorem preprocess_no_leakage
    (g : DGLGraph) (r : ℚ) (perm negChoice : List Nat) (out : SplitResult)
    (hin : ∀ e ∈ g.edges, e.1 < g.numNodes ∧ e.2 < g.numNodes)
    (hperm : perm.Perm (List.range g.edges.length))
    (hE : 0 < g.edges.length) (hr0 : 0 < r) (hr1 : r < 1)
    (h : preprocess g r perm negChoice = some out) :
    out.trainG.edges =
      removeEdgesByIds g.edges (perm.take (testSize g.edges.length r)) ∧
    out.trainG.numNodes = g.numNodes ∧
    (∀ i ∈ perm.take (testSize g.edges.length r),
      g.edges.getD i (0, 0) ∉ out.trainG.edges) ∧
    (∀ i < g.edges.length, i ∉ perm.take (testSize g.edges.length r) →
      g.edges.getD i (0, 0) ∈ out.trainG.edges) := by
  obtain ⟨h1, h2, h3, h4, rfl⟩ := preprocess_eq_some h
  have hnd : g.edges.Nodup :=
    ((preprocess_assert_iff g.edges g.numNodes hin).mp h3).1
  refine ⟨rfl, rfl, ?_, ?_⟩
  · intro i hi hmem
    rw [mem_removeEdgesByIds] at hmem
    obtain ⟨j, hj, hjnot, hje⟩ := hmem
    have hilen : i < g.edges.length := by
      have hmemr := hperm.mem_iff.mp (List.mem_of_mem_take hi)
      simpa [List.mem_range] using hmemr
    rw [List.getD_eq_getElem _ _ hj, List.getD_eq_getElem _ _ hilen] at hje
    have hij : j = i := (hnd.getElem_inj_iff).mp hje
    exact hjnot (hij ▸ hi)
  · intro i hilen hinot
    rw [mem_removeEdgesByIds]
    exact ⟨i, hilen, hinot, rfl⟩

/-- C2: for every split produced by `preprocess`, the positive-train and
positive-test edge sets partition the original edge set exactly: their union
(as edge-pair sets) equals the original edge set and their intersection is
empty. -/
theorem preprocess_partition
    (g : DGLGraph) (r : ℚ) (perm negChoice : List Nat) (out : SplitResult)
    (hin : ∀ e ∈ g.edges, e.1 < g.numNodes ∧ e.2 < g.numNodes)
    (hperm : perm.Perm (List.range g.edges.length))
    (h : preprocess g r perm negChoice = some out) :
    out.trainPos.edges.toFinset ∪ out.testPos.edges.toFinset =
      g.edges.toFinset ∧
    Disjoint out.trainPos.edges.toFinset out.testPos.edges.toFinset := by
  obtain ⟨h1, h2, h3, h4, rfl⟩ := preprocess_eq_some h
  have hnd : g.edges.Nodup :=
    ((preprocess_assert_iff g.edges g.numNodes hin).mp h3).1
  have hpermnd : perm.Nodup := hperm.nodup_iff.mpr (List.nodup_range _)
  constructor
  · ext x
    simp only [Finset.mem_union, List.mem_toFinset]
    constructor
    · rintro (hx | hx) <;>
        obtain ⟨i, hi, rfl⟩ := List.mem_map.mp hx
      · have hilen : i < g.edges.length := by
          have hmemr := hperm.mem_iff.mp (List.mem_of_mem_drop hi)
          simpa [List.mem_range] using hmemr
        rw [List.getD_eq_getElem _ _ hilen]
        exact List.getElem_mem _
      · have hilen : i < g.edges.length := by
          have hmemr := hperm.mem_iff.mp (List.mem_of_mem_take hi)
          simpa [List.mem_range] using hmemr
        rw [List.getD_eq_getElem _ _ hilen]
        exact List.getElem_mem _
    · intro hx
      obtain ⟨i, hilen, rfl⟩ := List.getElem_of_mem hx
      have hiperm : i ∈ perm := hperm.mem_iff.mpr (List.mem_range.mpr hilen)
      have hsplit : i ∈ perm.take (testSize g.edges.length r) ∨
          i ∈ perm.drop (testSize g.edges.length r) := by
        rw [← List.mem_append, List.take_append_drop]
        exact hiperm
      rcases hsplit with hi | hi
      · exact Or.inr (List.mem_map.mpr ⟨i, hi, (List.getD_eq_getElem _ _ hilen)⟩)
      · exact Or.inl (List.mem_map.mpr ⟨i, hi, (List.getD_eq_getElem _ _ hilen)⟩)
  · rw [Finset.disjoint_left]
    intro x hxtr hxte
    obtain ⟨i, hi, hxi⟩ := List.mem_map.mp (List.mem_toFinset.mp hxtr)
    obtain ⟨j, hj, hxj⟩ := List.mem_map.mp (List.mem_toFinset.mp hxte)
    have hilen : i < g.edges.length := by
      have hmemr := hperm.mem_iff.mp (List.mem_of_mem_drop hi)
      simpa [List.mem_range] using hmemr
    have hjlen : j < g.edges.length := by
      have hmemr := hperm.mem_iff.mp (List.mem_of_mem_take hj)
      simpa [List.mem_range] using hmemr
    rw [List.getD_eq_getElem _ _ hilen] at hxi
    rw [List.getD_eq_getElem _ _ hjlen] at hxj
    have heq : g.edges[i] = g.edges[j] := hxi.trans hxj.symm
    have hij : i = j := (hnd.getElem_inj_iff).mp heq
    have hdisj : (perm.take (testSize g.edges.length r)).Disjoint
        (perm.drop (testSize g.edges.length r)) := by
      have hsplitnd : ((perm.take (testSize g.edges.length r)) ++
          perm.drop (testSize g.edges.length r)).Nodup := by
        rwa [List.take_append_drop]
      exact (List.nodup_append.mp hsplitnd).2.2
    exact hdisj (hij ▸ hj) hi

/-- C10: for every input graph that is a simple directed graph (no duplicate
directed edges, no self-loops, endpoints below the node count), the equation
checked by the asserts inside `preprocess` holds: the number of positive
edges plus the number of negative-candidate pairs equals `N * (N - 1)` (the
same count applies to the source-index array and the destination-index array,
which have a common length here), so the AssertionError branch is
unreachable under this precondition. -/
theorem preprocess_assert_holds (edges : List (Nat × Nat)) (n : Nat)
    (hin : ∀ e ∈ edges, e.1 < n ∧ e.2 < n)
    (hnd : edges.Nodup) (hns : ∀ e ∈ edges, e.1 ≠ e.2) :
    edges.length + (negCandidates edges n).length = n * (n - 1) :=
  (preprocess_assert_iff edges n hin).mpr ⟨hnd, hns⟩

lemma preprocess_eq_withTs (g : DGLGraph) (r : ℚ) (perm negChoice : List Nat) :
    preprocess g r perm negChoice =
      preprocessWithTs g (testSize g.edges.length r) perm negChoice := rfl

/-- C3 counterexample: on the graph with edges `[(0,1),(1,2)]` and
`split_ratio = 1/4` (all values exactly representable in binary floating
point, so Python computes the same numbers), a legitimate run of
`preprocess` puts exactly 1 edge into the positive-test set, while
round-half-to-even of `2 * (1 - 1/4) = 1.5` clamped to `[0, 2]` is `2`:
the code truncates with `int(...)`, it does not round half to even. -/
theorem preprocess_test_size_counterexample :
    (preprocess ⟨3, [(0, 1), (1, 2)]⟩ (1 / 4) [0, 1] [0, 0]).map
        (fun o => o.testPos.edges.length) = some 1 ∧
    [0, 1].Perm (List.range 2) ∧
    claimedTestSize 2 (1 / 4) = 2 := by
  have hq : ((2 : ℕ) : ℚ) * (1 - 1 / 4) = 3 / 2 := by norm_num
  have hf : ⌊(3 / 2 : ℚ)⌋ = 1 := by
    rw [Int.floor_eq_iff]
    constructor <;> norm_num
  have hts : testSize 2 (1 / 4) = 1 := by
    unfold testSize
    rw [hq, hf]
    rfl
  refine ⟨?_, by decide, ?_⟩
  · have h2 : (⟨3, [(0, 1), (1, 2)]⟩ : DGLGraph).edges.length = 2 := rfl
    rw [show (preprocess ⟨3, [(0, 1), (1, 2)]⟩ (1 / 4) [0, 1] [0, 0]) =
        preprocessWithTs ⟨3, [(0, 1), (1, 2)]⟩ 1 [0, 1] [0, 0] from by
      rw [preprocess_eq_withTs, h2, hts]]
    decide
  · unfold claimedTestSize roundHalfEven
    rw [hq, hf]
    norm_num

/-- C3 (amended): the positive-test set returned by `preprocess` contains
exactly `int(E * (1 - split_ratio))` edges — truncation toward zero, that
is, the floor of the exact product for these nonnegative values, not
round-half-to-even — and this size always lies in `[0, E]`; the
negative-train and negative-test sets together contain exactly `E` sampled
pairs. -/
theorem preprocess_sizes
    (g : DGLGraph) (r : ℚ) (perm negChoice : List Nat) (out : SplitResult)
    (hperm : perm.Perm (List.range g.edges.length))
    (hlen : negChoice.length = g.edges.length)
    (hr0 : 0 < r) (hr1 : r < 1)
    (h : preprocess g r perm negChoice = some out) :
    out.testPos.edges.length = testSize g.edges.length r ∧
    testSize g.edges.length r ≤ g.edges.length ∧
    out.trainNeg.edges.length + out.testNeg.edges.length = g.edges.length := by
  obtain ⟨h1, h2, h3, h4, rfl⟩ := preprocess_eq_some h
  have hple : perm.length = g.edges.length :=
    hperm.length_eq.trans (List.length_range _)
  have hts := testSize_le g.edges.length r hr0.le
  refine ⟨?_, hts, ?_⟩
  · simp only [List.length_map, List.length_take, hple]
    omega
  · simp only [List.length_map, List.length_drop, List.length_take, hlen]
    omega

/-- C4 counterexample: on the graph with the single directed edge `(0, 1)`,
a legitimate run of `preprocess` samples the negative pair `(1, 0)` into the
negative-train set, although the original graph has an edge between these
two endpoints in the opposite direction: the complement `1 - adj - eye`
only excludes same-direction edges, so "no edge in either direction" is
false. -/
theorem preprocess_negative_reverse_edge_counterexample :
    (preprocess ⟨2, [(0, 1)]⟩ (1 / 2) [0] [0]).map
        (fun o => o.trainNeg.edges) = some [(1, 0)] ∧
    [0].Perm (List.range 1) ∧
    (0, 1) ∈ (⟨2, [(0, 1)]⟩ : DGLGraph).edges := by
  have hf : ⌊(1 / 2 : ℚ)⌋ = 0 := by
    rw [Int.floor_eq_iff]
    constructor <;> norm_num
  have hts : testSize 1 (1 / 2) = 0 := by
    unfold testSize
    rw [show ((1 : ℕ) : ℚ) * (1 - 1 / 2) = 1 / 2 by norm_num, hf]
    rfl
  refine ⟨?_, by decide, by decide⟩
  have h1 : (⟨2, [(0, 1)]⟩ : DGLGraph).edges.length = 1 := rfl
  rw [show (preprocess ⟨2, [(0, 1)]⟩ (1 / 2) [0] [0]) =
      preprocessWithTs ⟨2, [(0, 1)]⟩ 0 [0] [0] from by
    rw [preprocess_eq_withTs, h1, hts]]
  decide

/-- C4 (amended): for every run of `preprocess` that returns a split, every
sampled negative pair (negative-train or negative-test) is not itself a
directed edge of the original graph — no edge in the same direction — and
has distinct endpoints; an edge in the opposite direction may exist. -/
theorem preprocess_negative_pairs
    (g : DGLGraph) (r : ℚ) (perm negChoice : List Nat) (out : SplitResult)
    (hin : ∀ e ∈ g.edges, e.1 < g.numNodes ∧ e.2 < g.numNodes)
    (hchoice : ∀ i ∈ negChoice, i < (negCandidates g.edges g.numNodes).length)
    (h : preprocess g r perm negChoice = some out) :
    (∀ p ∈ out.trainNeg.edges, p ∉ g.edges ∧ p.1 ≠ p.2) ∧
    (∀ p ∈ out.testNeg.edges, p ∉ g.edges ∧ p.1 ≠ p.2) := by
  obtain ⟨h1, h2, h3, h4, rfl⟩ := preprocess_eq_some h
  obtain ⟨hnd, hns⟩ := (preprocess_assert_iff g.edges g.numNodes hin).mp h3
  have hmain : ∀ p ∈ negCandidates g.edges g.numNodes, p ∉ g.edges ∧ p.1 ≠ p.2 := by
    intro p hp
    rw [mem_negCandidates] at hp
    obtain ⟨hp1, hp2, hpne⟩ := hp
    by_cases hd : p.1 = p.2
    · exfalso
      unfold negEntry adjEntry at hpne
      rw [if_pos hd] at hpne
      have hcount : g.edges.count (p.1, p.2) ≠ 0 := by
        intro hc
        rw [hc] at hpne
        simp at hpne
      have hmem : (p.1, p.2) ∈ g.edges :=
        List.count_pos_iff.mp (Nat.pos_of_ne_zero hcount)
      exact hns (p.1, p.2) hmem hd
    · refine ⟨?_, hd⟩
      unfold negEntry adjEntry at hpne
      rw [if_neg hd] at hpne
      have hle : g.edges.count (p.1, p.2) ≤ 1 :=
        nodup_iff_count_le_one_beq.mp hnd (p.1, p.2)
      have hzero : g.edges.count (p.1, p.2) = 0 := by omega
      rw [show ((p.1 : ℕ), (p.2 : ℕ)) = p from rfl] at hzero
      exact List.not_mem_of_count_eq_zero hzero
  constructor
  · intro p hp
    obtain ⟨i, hi, hpi⟩ := List.mem_map.mp hp
    have hilen : i < (negCandidates g.edges g.numNodes).length :=
      hchoice i (List.mem_of_mem_drop hi)
    rw [List.getD_eq_getElem _ _ hilen] at hpi
    exact hpi ▸ hmain _ (List.getElem_mem _)
  · intro p hp
    obtain ⟨i, hi, hpi⟩ := List.mem_map.mp hp
    have hilen : i < (negCandidates g.edges g.numNodes).length :=
      hchoice i (List.mem_of_mem_take hi)
    rw [List.getD_eq_getElem _ _ hilen] at hpi
    exact hpi ▸ hmain _ (List.getElem_mem _)

/-- C9: `preprocess` is deterministic and reproducible: the generators are
reseeded with the single fixed constant at the start of every call, so the
returned five subgraphs do not depend on the incoming generator state —
for a fixed input graph, split ratio and generator implementation, any two
calls return identical results. -/
theorem preprocess_reproducible (permGen : Nat → Nat → List Nat × Nat)
    (choiceGen : Nat → Nat → Nat → List Nat)
    (g : DGLGraph) (r : ℚ) (st1 st2 : Nat) :
    preprocessSeeded permGen choiceGen g r st1 =
      preprocessSeeded permGen choiceGen g r st2 := rfl

/-! ### The remapper invariant -/

lemma idxPairs_append (l : List Int) (x : Int) (k : Nat) :
    idxPairs (l ++ [x]) k = idxPairs l k ++ [(x, k + l.length)] := by
  induction l generalizing k with
  | nil => simp [idxPairs]
  | cons y ys ih =>
      simp only [List.cons_append, idxPairs, List.length_cons, List.append_eq, ih]
      have harith : k + 1 + ys.length = k + (ys.length + 1) := by omega
      rw [harith]

lemma revPairs_append (l : List Int) (x : Int) (k : Nat) :
    revPairs (l ++ [x]) k = revPairs l k ++ [(k + l.length, x)] := by
  induction l generalizing k with
  | nil => simp [revPairs]
  | cons y ys ih =>
      simp only [List.cons_append, revPairs, List.length_cons, List.append_eq, ih]
      have harith : k + 1 + ys.length = k + (ys.length + 1) := by omega
      rw [harith]

lemma lookup_idxPairs_eq_none {l : List Int} {x : Int} (k : Nat) (hx : x ∉ l) :
    (idxPairs l k).lookup x = none := by
  induction l generalizing k with
  | nil => rfl
  | cons y ys ih =>
      rw [idxPairs, List.lookup_cons]
      have hxy : (x == y) = false := beq_eq_false_iff_ne.mpr
        (fun hh => hx (hh ▸ List.mem_cons_self _ _))
      rw [hxy]
      exact ih (k + 1) (fun hm => hx (List.mem_cons_of_mem _ hm))

lemma lookup_idxPairs_isSome {l : List Int} {x : Int} (k : Nat) (hx : x ∈ l) :
    ∃ i, (idxPairs l k).lookup x = some i := by
  induction l generalizing k with
  | nil => cases hx
  | cons y ys ih =>
      rw [idxPairs, List.lookup_cons]
      by_cases hxy : x = y
      · rw [beq_iff_eq.mpr hxy]
        exact ⟨k, rfl⟩
      · rw [beq_eq_false_iff_ne.mpr hxy]
        exact ih (k + 1) ((List.mem_cons.mp hx).resolve_left hxy)

lemma lookup_idxPairs_bounds {l : List Int} {x : Int} {k i : Nat}
    (h : (idxPairs l k).lookup x = some i) : k ≤ i ∧ i < k + l.length := by
  induction l generalizing k with
  | nil => cases h
  | cons y ys ih =>
      rw [idxPairs, List.lookup_cons] at h
      cases hb : (x == y) with
      | true =>
          rw [hb] at h
          have hik : k = i := Option.some.inj h
          simp only [List.length_cons]
          omega
      | false =>
          rw [hb] at h
          have := ih h
          simp only [List.length_cons]
          omega

lemma lookup_revPairs_bounds {l : List Int} {x : Int} {k i : Nat}
    (h : (revPairs l k).lookup i = some x) : k ≤ i ∧ i < k + l.length := by
  induction l generalizing k with
  | nil => cases h
  | cons y ys ih =>
      rw [revPairs, List.lookup_cons] at h
      cases hb : (i == k) with
      | true =>
          have hik : i = k := beq_iff_eq.mp hb
          simp only [List.length_cons]
          omega
      | false =>
          rw [hb] at h
          have := ih h
          simp only [List.length_cons]
          omega

lemma lookup_revPairs_of_idxPairs {l : List Int} {x : Int} {k i : Nat}
    (h : (idxPairs l k).lookup x = some i) :
    (revPairs l k).lookup i = some x := by
  induction l generalizing k with
  | nil => cases h
  | cons y ys ih =>
      rw [idxPairs, List.lookup_cons] at h
      rw [revPairs, List.lookup_cons]
      cases hb : (x == y) with
      | true =>
          rw [hb] at h
          have hik : k = i := Option.some.inj h
          rw [beq_iff_eq.mpr hik.symm]
          rw [Option.some.injEq]
          exact (beq_iff_eq.mp hb).symm
      | false =>
          rw [hb] at h
          have hbound := lookup_idxPairs_bounds h
          have hik : (i == k) = false := beq_eq_false_iff_ne.mpr (by omega)
          rw [hik]
          exact ih h

lemma lookup_idxPairs_of_revPairs {l : List Int} {x : Int} {k i : Nat}
    (hnd : l.Nodup) (h : (revPairs l k).lookup i = some x) :
    (idxPairs l k).lookup x = some i := by
  induction l generalizing k with
  | nil => cases h
  | cons y ys ih =>
      rw [revPairs, List.lookup_cons] at h
      rw [idxPairs, List.lookup_cons]
      obtain ⟨hny, hndtl⟩ := List.nodup_cons.mp hnd
      cases hb : (i == k) with
      | true =>
          rw [hb] at h
          have hxy : y = x := Option.some.inj h
          rw [beq_iff_eq.mpr hxy.symm, Option.some.injEq]
          exact (beq_iff_eq.mp hb).symm
      | false =>
          rw [hb] at h
          have hxys : x ∈ ys := by
            have hs := ih hndtl h
            by_contra hxn
            rw [lookup_idxPairs_eq_none (k + 1) hxn] at hs
            cases hs
          have hxy : (x == y) = false := beq_eq_false_iff_ne.mpr
            (fun hh => hny (hh ▸ hxys))
          rw [hxy]
          exact ih hndtl h

lemma revPairs_map_fst (l : List Int) (k : Nat) :
    (revPairs l k).map Prod.fst = List.range' k l.length := by
  induction l generalizing k with
  | nil => simp [revPairs]
  | cons y ys ih =>
      simp only [revPairs, List.map_cons, List.length_cons, List.range'_succ, ih]

lemma revPairs_map_snd (l : List Int) (k : Nat) :
    (revPairs l k).map Prod.snd = l := by
  induction l generalizing k with
  | nil => simp [revPairs]
  | cons y ys ih => simp only [revPairs, List.map_cons, ih]

lemma encStep_nodup {acc : List Int} (x : Int) (h : acc.Nodup) :
    (encStep acc x).Nodup := by
  unfold encStep
  split_ifs with hx
  · exact h
  · rw [List.nodup_append]
    refine ⟨h, List.nodup_singleton x, ?_⟩
    intro a ha hax
    rw [List.mem_singleton] at hax
    exact hx (hax ▸ ha)

lemma mem_encStep {acc : List Int} {x y : Int} :
    y ∈ encStep acc x ↔ y ∈ acc ∨ y = x := by
  unfold encStep
  split_ifs with hx
  · constructor
    · exact Or.inl
    · rintro (h | rfl)
      · exact h
      · exact hx
  · simp [List.mem_append]

lemma foldl_encStep_nodup (ids : List Int) (acc : List Int) (h : acc.Nodup) :
    (ids.foldl encStep acc).Nodup := by
  induction ids generalizing acc with
  | nil => exact h
  | cons a tl ih => exact ih _ (encStep_nodup a h)

lemma encounterOrder_nodup (ids : List Int) : (encounterOrder ids).Nodup :=
  foldl_encStep_nodup ids [] List.nodup_nil

lemma mem_foldl_encStep {ids : List Int} {acc : List Int} {y : Int} :
    y ∈ ids.foldl encStep acc ↔ y ∈ acc ∨ y ∈ ids := by
  induction ids generalizing acc with
  | nil => simp
  | cons a tl ih =>
      simp only [List.foldl_cons, ih, mem_encStep, List.mem_cons]
      tauto

lemma mem_encounterOrder {ids : List Int} {y : Int} :
    y ∈ encounterOrder ids ↔ y ∈ ids := by
  unfold encounterOrder
  rw [mem_foldl_encStep]
  simp

lemma processEndpoint_maps (b : Bool) (st : BuildState) (v : MgVertex)
    (enc : List Int)
    (h1 : st.newToOld = revPairs enc 0) (h2 : st.oldToNew = idxPairs enc 0)
    (h3 : st.ind = enc.length) :
    (processEndpoint b st v).newToOld = revPairs (encStep enc v.vid) 0 ∧
    (processEndpoint b st v).oldToNew = idxPairs (encStep enc v.vid) 0 ∧
    (processEndpoint b st v).ind = (encStep enc v.vid).length := by
  unfold encStep
  cases hl : st.oldToNew.lookup v.vid with
  | some k =>
      have hmem : v.vid ∈ enc := by
        by_contra hnm
        rw [h2, lookup_idxPairs_eq_none 0 hnm] at hl
        cases hl
      rw [if_pos hmem]
      simp only [processEndpoint, hl]
      cases b <;> simp [h1, h2, h3]
  | none =>
      have hnm : v.vid ∉ enc := by
        intro hm
        obtain ⟨i, hi⟩ := lookup_idxPairs_isSome 0 hm
        rw [h2, hi] at hl
        cases hl
      rw [if_neg hnm]
      simp only [processEndpoint, hl]
      refine ⟨?_, ?_, ?_⟩
      · rw [h1, h3, revPairs_append]
        simp
      · rw [h2, h3, idxPairs_append]
        simp
      · simp [h3]

lemma buildAll_maps_gen (edges : List MgEdge) :
    ∀ (st : BuildState) (enc : List Int),
      st.newToOld = revPairs enc 0 → st.oldToNew = idxPairs enc 0 →
      st.ind = enc.length →
      (edges.foldl processEdge st).newToOld =
          revPairs ((flattenIds edges).foldl encStep enc) 0 ∧
      (edges.foldl processEdge st).oldToNew =
          idxPairs ((flattenIds edges).foldl encStep enc) 0 ∧
      (edges.foldl processEdge st).ind =
          ((flattenIds edges).foldl encStep enc).length := by
  induction edges with
  | nil =>
      intro st enc h1 h2 h3
      exact ⟨by simpa [flattenIds] using h1, by simpa [flattenIds] using h2,
        by simpa [flattenIds] using h3⟩
  | cons e tl ih =>
      intro st enc h1 h2 h3
      obtain ⟨g1, g2, g3⟩ := processEndpoint_maps true st e.fromV enc h1 h2 h3
      obtain ⟨f1, f2, f3⟩ := processEndpoint_maps false
        (processEndpoint true st e.fromV) e.toV (encStep enc e.fromV.vid) g1 g2 g3
      have hrec := ih (processEdge st e)
        (encStep (encStep enc e.fromV.vid) e.toV.vid) f1 f2 f3
      simpa [flattenIds, processEdge, List.flatMap_cons, List.foldl_cons,
        List.foldl_append] using hrec

lemma buildAll_maps (edges : List MgEdge) :
    (buildAll edges).newToOld = revPairs (encounterOrder (flattenIds edges)) 0 ∧
    (buildAll edges).oldToNew = idxPairs (encounterOrder (flattenIds edges)) 0 ∧
    (buildAll edges).ind = (encounterOrder (flattenIds edges)).length :=
  buildAll_maps_gen edges initBuild [] rfl rfl rfl

/-- C5: for every property-graph view, after graph construction the returned
`old_to_new` and `new_to_old` mappings are mutually inverse bijections:
looking an encountered external id up in `old_to_new` and looking the
result up in `new_to_old` returns the id, and conversely; the keys of
`new_to_old` are exactly the dense indices `0, 1, ..., N-1`, each hit
exactly once; and the value at dense index `k` is the `k`-th external id
in first-encounter order while scanning edges, source endpoint before
destination endpoint within each edge; every scanned external id has an
entry. -/
theorem remapper_bijection (edges : List MgEdge) :
    (∀ x i, (buildAll edges).oldToNew.lookup x = some i →
        (buildAll edges).newToOld.lookup i = some x) ∧
    (∀ i x, (buildAll edges).newToOld.lookup i = some x →
        (buildAll edges).oldToNew.lookup x = some i) ∧
    (buildAll edges).newToOld.map Prod.fst = List.range (buildAll edges).ind ∧
    (buildAll edges).newToOld.map Prod.snd = encounterOrder (flattenIds edges) ∧
    (∀ x ∈ flattenIds edges, ∃ i, (buildAll edges).oldToNew.lookup x = some i) := by
  obtain ⟨h1, h2, h3⟩ := buildAll_maps edges
  refine ⟨?_, ?_, ?_, ?_, ?_⟩
  · intro x i hx
    rw [h2] at hx
    rw [h1]
    exact lookup_revPairs_of_idxPairs hx
  · intro i x hx
    rw [h1] at hx
    rw [h2]
    exact lookup_idxPairs_of_revPairs (encounterOrder_nodup _) hx
  · rw [h1, h3, revPairs_map_fst]
    exact (List.range_eq_range' _).symm
  · rw [h1, revPairs_map_snd]
  · intro x hx
    rw [h2]
    exact lookup_idxPairs_isSome 0 (mem_encounterOrder.mpr hx)

/-- C8 counterexample: on a view with one edge whose source vertex (external
id 5) has no value under the feature property, the scan does not fail at
that point: it records a `None` placeholder at dense index 0, continues, and
assigns index 1 to the destination — the feature list after the scan is
`[None, [1]]` and only the final `torch.tensor` conversion fails.  There is
no `FeatureMissingError` raised at first assignment, and the missing feature
is represented by a null placeholder, contrary to the claim. -/
theorem feature_missing_counterexample :
    (buildAll [⟨⟨5, none⟩, ⟨7, some [1]⟩⟩]).features = [none, some [1]] ∧
    (buildAll [⟨⟨5, none⟩, ⟨7, some [1]⟩⟩]).ind = 2 ∧
    getDglGraphData [⟨⟨5, none⟩, ⟨7, some [1]⟩⟩] = none := by
  refine ⟨rfl, rfl, rfl⟩

/-- C8 (amended): whenever some vertex had no value under the feature
property at first assignment, the missing feature is carried through the
scan as a `None` placeholder and the build fails — `_get_dgl_graph_data`
produces no tensor graph, because `torch.tensor` raises on the `None`
entry; the missing feature is never replaced by a zero vector or any other
default, but the failure surfaces only at the final feature-tensor
conversion, not at the point of first assignment (the conversion can also
fail for other reasons, such as feature vectors of unequal lengths). -/
theorem build_fails_on_feature_missing (edges : List MgEdge) :
    none ∈ (buildAll edges).features → getDglGraphData edges = none := by
  intro hmem
  have hall : ((buildAll edges).features.all (fun f => f.isSome)) = false := by
    rw [List.all_eq_false]
    exact ⟨none, hmem, by simp⟩
  have hconv : tensorConvertible (buildAll edges).features = false := by
    unfold tensorConvertible
    rw [hall, Bool.false_and]
  unfold getDglGraphData
  dsimp only
  rw [hconv]
  simp

/-! ### The inductive query adapter -/

lemma indexOf_append_singleton {α : Type} [BEq α] [LawfulBEq α] {l : List α}
    {p : α} (h : p ∉ l) : (l ++ [p]).indexOf p = l.length := by
  induction l with
  | nil =>
      rw [List.nil_append, List.indexOf_cons]
      simp
  | cons a tl ih =>
      rw [List.cons_append, List.indexOf_cons]
      have hpa : (a == p) = false := beq_eq_false_iff_ne.mpr
        (fun hh => h (hh ▸ List.mem_cons_self _ _))
      rw [hpa, cond_false, ih (fun hm => h (List.mem_cons_of_mem _ hm)),
        List.length_cons]

lemma eraseIdx_append_length (l : List (Nat × Nat)) (p : Nat × Nat) :
    (l ++ [p]).eraseIdx l.length = l := by
  induction l with
  | nil => rfl
  | cons a tl ih =>
      rw [List.cons_append, List.length_cons, List.eraseIdx_cons_succ, ih]

/-- C6: for every `predict` call where a directed edge already exists
between the two resolved dense indices, the score is computed at that
existing edge's edge-id and the trained graph is not mutated: the call
returns the input graph itself, with no probe edge added and no removal
performed. -/
theorem predict_existing_edge (scorer : DGLGraph → Nat → ℚ)
    (oldToNew : List (Int × Nat)) (g : DGLGraph) (srcOld destOld : Int)
    (s d : Nat)
    (hs : oldToNew.lookup srcOld = some s)
    (hd : oldToNew.lookup destOld = some d)
    (hmem : (s, d) ∈ g.edges) :
    predictProc scorer oldToNew g srcOld destOld =
      some (scorer g (edgeIdOf g s d), g) := by
  simp only [predictProc, hs, hd]
  rw [if_pos hmem]

/-- C7: for every `predict` call on a pair of known external ids whose dense
indices have no existing directed edge, the call scores the probe edge at
the fresh id `|E|` and returns the graph unchanged: the edge count equals
its value before the call and every pre-existing edge keeps its edge-id
(the returned graph's edge list is the input's, position by position). -/
theorem predict_round_trip (scorer : DGLGraph → Nat → ℚ)
    (oldToNew : List (Int × Nat)) (g : DGLGraph) (srcOld destOld : Int)
    (s d : Nat)
    (hs : oldToNew.lookup srcOld = some s)
    (hd : oldToNew.lookup destOld = some d)
    (hsN : s < g.numNodes) (hdN : d < g.numNodes)
    (hmem : (s, d) ∉ g.edges) :
    predictProc scorer oldToNew g srcOld destOld =
      some (scorer (addEdge g s d) g.edges.length, g) ∧
    (predictProc scorer oldToNew g srcOld destOld).map
        (fun q => q.2.edges.length) = some g.edges.length ∧
    (predictProc scorer oldToNew g srcOld destOld).map (fun q => q.2.edges) =
      some g.edges := by
  obtain ⟨N, es⟩ := g
  have hmem2 : (s, d) ∉ es := hmem
  have hsN2 : s < N := hsN
  have hdN2 : d < N := hdN
  have heid : edgeIdOf (addEdge ⟨N, es⟩ s d) s d = es.length := by
    unfold edgeIdOf addEdge
    exact indexOf_append_singleton hmem2
  have hrem : removeEdgeId (addEdge ⟨N, es⟩ s d) es.length = ⟨N, es⟩ := by
    unfold removeEdgeId addEdge
    have h1 : max N (max (s + 1) (d + 1)) = N := by omega
    simp only [h1, eraseIdx_append_length]
  have hpred : predictProc scorer oldToNew ⟨N, es⟩ srcOld destOld =
      some (scorer (addEdge ⟨N, es⟩ s d) es.length, ⟨N, es⟩) := by
    simp only [predictProc, hs, hd]
    rw [if_neg hmem2]
    rw [heid, hrem]
  exact ⟨hpred, by rw [hpred]; rfl, by rw [hpred]; rfl⟩

/-! ### Witnesses: concrete runs of the theorems above -/

lemma preprocess_example_eval :
    preprocess gEx (1 / 2) permEx choiceEx = some splitEx := by
  have hts : testSize 2 (1 / 2) = 1 := by
    unfold testSize
    rw [show ((2 : ℕ) : ℚ) * (1 - 1 / 2) = 1 by norm_num, Int.floor_one]
    rfl
  rw [preprocess_eq_withTs, show gEx.edges.length = 2 from rfl, hts]
  decide

theorem preprocess_no_leakage_witness :
    ((∀ e ∈ gEx.edges, e.1 < gEx.numNodes ∧ e.2 < gEx.numNodes) ∧
     permEx.Perm (List.range gEx.edges.length) ∧
     0 < gEx.edges.length ∧ (0 : ℚ) < 1 / 2 ∧ (1 / 2 : ℚ) < 1 ∧
     preprocess gEx (1 / 2) permEx choiceEx = some splitEx) ∧
    (splitEx.trainG.edges =
        removeEdgesByIds gEx.edges (permEx.take (testSize gEx.edges.length (1 / 2))) ∧
     splitEx.trainG.numNodes = gEx.numNodes ∧
     (∀ i ∈ permEx.take (testSize gEx.edges.length (1 / 2)),
        gEx.edges.getD i (0, 0) ∉ splitEx.trainG.edges) ∧
     (∀ i < gEx.edges.length, i ∉ permEx.take (testSize gEx.edges.length (1 / 2)) →
        gEx.edges.getD i (0, 0) ∈ splitEx.trainG.edges)) := by
  have hin : ∀ e ∈ gEx.edges, e.1 < gEx.numNodes ∧ e.2 < gEx.numNodes := by decide
  have hperm : permEx.Perm (List.range gEx.edges.length) := by decide
  exact ⟨⟨hin, hperm, by decide, by norm_num, by norm_num, preprocess_example_eval⟩,
    preprocess_no_leakage gEx (1 / 2) permEx choiceEx splitEx hin hperm
      (by decide) (by norm_num) (by norm_num) preprocess_example_eval⟩

theorem preprocess_partition_witness :
    ((∀ e ∈ gEx.edges, e.1 < gEx.numNodes ∧ e.2 < gEx.numNodes) ∧
     permEx.Perm (List.range gEx.edges.length) ∧
     preprocess gEx (1 / 2) permEx choiceEx = some splitEx) ∧
    (splitEx.trainPos.edges.toFinset ∪ splitEx.testPos.edges.toFinset =
        gEx.edges.toFinset ∧
     Disjoint splitEx.trainPos.edges.toFinset splitEx.testPos.edges.toFinset) := by
  have hin : ∀ e ∈ gEx.edges, e.1 < gEx.numNodes ∧ e.2 < gEx.numNodes := by decide
  have hperm : permEx.Perm (List.range gEx.edges.length) := by decide
  exact ⟨⟨hin, hperm, preprocess_example_eval⟩,
    preprocess_partition gEx (1 / 2) permEx choiceEx splitEx hin hperm
      preprocess_example_eval⟩

theorem preprocess_sizes_witness :
    (permEx.Perm (List.range gEx.edges.length) ∧
     choiceEx.length = gEx.edges.length ∧
     (0 : ℚ) < 1 / 2 ∧ (1 / 2 : ℚ) < 1 ∧
     preprocess gEx (1 / 2) permEx choiceEx = some splitEx) ∧
    (splitEx.testPos.edges.length = testSize gEx.edges.length (1 / 2) ∧
     testSize gEx.edges.length (1 / 2) ≤ gEx.edges.length ∧
     splitEx.trainNeg.edges.length + splitEx.testNeg.edges.length =
        gEx.edges.length) := by
  have hperm : permEx.Perm (List.range gEx.edges.length) := by decide
  exact ⟨⟨hperm, by decide, by norm_num, by norm_num, preprocess_example_eval⟩,
    preprocess_sizes gEx (1 / 2) permEx choiceEx splitEx hperm (by decide)
      (by norm_num) (by norm_num) preprocess_example_eval⟩

theorem preprocess_negative_pairs_witness :
    ((∀ e ∈ gEx.edges, e.1 < gEx.numNodes ∧ e.2 < gEx.numNodes) ∧
     (∀ i ∈ choiceEx, i < (negCandidates gEx.edges gEx.numNodes).length) ∧
     preprocess gEx (1 / 2) permEx choiceEx = some splitEx) ∧
    ((∀ p ∈ splitEx.trainNeg.edges, p ∉ gEx.edges ∧ p.1 ≠ p.2) ∧
     (∀ p ∈ splitEx.testNeg.edges, p ∉ gEx.edges ∧ p.1 ≠ p.2)) := by
  have hin : ∀ e ∈ gEx.edges, e.1 < gEx.numNodes ∧ e.2 < gEx.numNodes := by decide
  have hch : ∀ i ∈ choiceEx, i < (negCandidates gEx.edges gEx.numNodes).length := by
    decide
  exact ⟨⟨hin, hch, preprocess_example_eval⟩,
    preprocess_negative_pairs gEx (1 / 2) permEx choiceEx splitEx hin hch
      preprocess_example_eval⟩

theorem preprocess_assert_holds_witness :
    ((∀ e ∈ gEx.edges, e.1 < gEx.numNodes ∧ e.2 < gEx.numNodes) ∧
     gEx.edges.Nodup ∧ (∀ e ∈ gEx.edges, e.1 ≠ e.2)) ∧
    gEx.edges.length + (negCandidates gEx.edges gEx.numNodes).length =
      gEx.numNodes * (gEx.numNodes - 1) := by
  have hin : ∀ e ∈ gEx.edges, e.1 < gEx.numNodes ∧ e.2 < gEx.numNodes := by decide
  exact ⟨⟨hin, by decide, by decide⟩,
    preprocess_assert_holds gEx.edges gEx.numNodes hin (by decide) (by decide)⟩

theorem remapper_bijection_witness :
    (buildAll edgesEx).oldToNew.lookup 10 = some 0 ∧
    (buildAll edgesEx).newToOld.lookup 0 = some 10 ∧
    (buildAll edgesEx).newToOld.map Prod.snd = encounterOrder (flattenIds edgesEx) := by
  have h := remapper_bijection edgesEx
  exact ⟨by decide, h.1 10 0 (by decide), h.2.2.2.1⟩

theorem predict_existing_edge_witness :
    (o2nEx.lookup 100 = some 0 ∧ o2nEx.lookup 200 = some 1 ∧
     (0, 1) ∈ predGEx.edges) ∧
    predictProc scorerEx o2nEx predGEx 100 200 =
      some (scorerEx predGEx (edgeIdOf predGEx 0 1), predGEx) := by
  exact ⟨⟨by decide, by decide, by decide⟩,
    predict_existing_edge scorerEx o2nEx predGEx 100 200 0 1 (by decide)
      (by decide) (by decide)⟩

theorem predict_round_trip_witness :
    (o2nEx.lookup 200 = some 1 ∧ o2nEx.lookup 100 = some 0 ∧
     1 < predGEx.numNodes ∧ 0 < predGEx.numNodes ∧ (1, 0) ∉ predGEx.edges) ∧
    (predictProc scorerEx o2nEx predGEx 200 100 =
        some (scorerEx (addEdge predGEx 1 0) predGEx.edges.length, predGEx) ∧
     (predictProc scorerEx o2nEx predGEx 200 100).map
        (fun q => q.2.edges.length) = some predGEx.edges.length ∧
     (predictProc scorerEx o2nEx predGEx 200 100).map (fun q => q.2.edges) =
        some predGEx.edges) := by
  exact ⟨⟨by decide, by decide, by decide, by decide, by decide⟩,
    predict_round_trip scorerEx o2nEx predGEx 200 100 1 0 (by decide) (by decide)
      (by decide) (by decide) (by decide)⟩

theorem build_fails_on_feature_missing_witness :
    none ∈ (buildAll [⟨⟨5, none⟩, ⟨7, some [1]⟩⟩]).features ∧
    getDglGraphData [⟨⟨5, none⟩, ⟨7, some [1]⟩⟩] = none :=
  ⟨by decide, build_fails_on_feature_missing [⟨⟨5, none⟩, ⟨7, some [1]⟩⟩]
    (by decide)⟩
